import Mathlib

/-!
# Verification of the OTE calibration statistics engine

This file is a shallow embedding, in Lean 4, of the statistical core of the
calibration-interval calculator (`stats.py`), together with theorems settling
the specification claims about it.

Modelling decisions, applied uniformly:

* Python floats are modelled by `ℚ` with exact real-number semantics; binary
  floating-point rounding is outside the scope of this embedding.  In
  particular `np.arange(start, stop, step)` is modelled exactly: it produces
  `start + k * step` for `k < ⌈(stop - start) / step⌉`, which is the
  real-arithmetic meaning of the numpy call.
* `scipy.stats.beta(a, b).ppf` is an external numerical routine (the quantile
  function of the Beta distribution); the embedding takes it as an explicit
  function parameter `ppf : ℚ → ℚ → ℚ → ℚ` (arguments: `a`, `b`, probability).
  Facts the source relies on (monotonicity of a quantile function in the
  probability argument) appear as hypotheses.  The instantiation
  `ppfId a b q = q` is the exact quantile function of `Beta(1,1)` (the uniform
  distribution on `[0,1]`), which the real program reaches at the valid input
  `n = 1`, `o = 1/2` (`a = 1/2 + o = 1`, `b = 1/2 + (n - o) = 1`); concrete
  evaluations below therefore mirror genuine runs of the program.
* `scipy.optimize.fmin(f, x0, ftol=1e-4, disp=False)` is modelled as a
  function parameter returning the final iterate together with the
  convergence flag that scipy tracks internally (`warnflag`); the call site
  `fmin(...)[0]` keeps only the iterate, which the model makes explicit.
* The pandas pipeline in `BH_adjusted_pval` (Series.rank with the default
  `method='average'`, `sort_values(by="rank", ascending=False)`, `cummin`,
  `np.minimum(_, 1)`, `sort_index`) is modelled row by row.  pandas sorts with
  an unstable quicksort; the model uses insertion sort.  The choice cannot be
  observed: rows with equal rank keys carry equal p-values and hence equal
  adjusted values (proved below), and the index keys of the final sort are
  pairwise distinct.
-/

/-! ## Interval engine: `ci_ote` (stats.py lines 14-45) -/

/-- Embedding of `ci_ote(n, o, e, cl)`: the equal-tailed interval of the
`Beta(1/2 + o, 1/2 + (n - o))` distribution at confidence level `cl`, with the
edge corrections `o == 0 ⇒ lower quantile := 0` and `n == o ⇒ upper quantile
:= 1`, both bounds then rescaled by `n / e`.  `ppf` is the Beta quantile
function (see the header). -/
def ci_ote (ppf : ℚ → ℚ → ℚ → ℚ) (n o e cl : ℚ) : ℚ × ℚ :=
  ((if o = 0 then 0 else ppf (1/2 + o) (1/2 + (n - o)) ((1 - cl)/2)) * n / e,
   (if n = o then 1 else ppf (1/2 + o) (1/2 + (n - o)) ((1 + cl)/2)) * n / e)

/-- Quantile function of `Beta(1,1)`, i.e. of the uniform distribution: the
identity in the probability argument.  This is the exact `ppf` the program
uses at the valid input `n = 1`, `o = 1/2`. -/
def ppfId : ℚ → ℚ → ℚ → ℚ := fun _ _ q => q

/-! ## HDI engine: `calculate_beta_hdi` and `ci_ote_hdi` (stats.py lines 48-75) -/

/-- Embedding of `calculate_beta_hdi(a, b, p)`.  `fminImpl` models
`scipy.optimize.fmin`: given the objective and the initial guess it returns
the final iterate together with scipy's internal convergence flag
(`warnflag = 0` iff the minimizer converged within its iteration cap).  The
source keeps only component `[0]` of the result — the iterate — and never
inspects the flag. -/
def calculate_beta_hdi (ppf : ℚ → ℚ → ℚ → ℚ)
    (fminImpl : (ℚ → ℚ) → ℚ → ℚ × Bool) (a b p : ℚ) : ℚ × ℚ :=
  (ppf a b ((fminImpl (fun t => ppf a b (p + t) - ppf a b t) (1 - p)).1),
   ppf a b (p + (fminImpl (fun t => ppf a b (p + t) - ppf a b t) (1 - p)).1))

/-- Embedding of `ci_ote_hdi(n, o, e, cl)`: the Beta HDI rescaled by `n / e`. -/
def ci_ote_hdi (ppf : ℚ → ℚ → ℚ → ℚ)
    (fminImpl : (ℚ → ℚ) → ℚ → ℚ × Bool) (n o e cl : ℚ) : ℚ × ℚ :=
  ((calculate_beta_hdi ppf fminImpl (1/2 + o) (1/2 + (n - o)) cl).1 * n / e,
   (calculate_beta_hdi ppf fminImpl (1/2 + o) (1/2 + (n - o)) cl).2 * n / e)

/-! ## Significance search: `calculate_p_value` (stats.py lines 78-88) -/

/-- Exact-arithmetic model of `np.arange(start, stop, step)` (see header). -/
def npArange (start stop step : ℚ) : List ℚ :=
  (List.range (⌈(stop - start) / step⌉).toNat).map (fun (k : ℕ) => start + (k : ℚ) * step)

/-- The confidence-level grid of `calculate_p_value` (stats.py lines 79-83):
step 0.01 from 0.01 up to 0.99, then 0.001 up to 0.999, then 0.0001 up to 1. -/
def conf_levels : List ℚ :=
  npArange 0.01 0.99 0.01 ++ npArange 0.99 0.999 0.001 ++ npArange 0.999 1 0.0001

/-- The break condition of the sweep loop (stats.py line 86):
`ci[0] < 1 and 1 < ci[1]`, i.e. the interval strictly contains 1. -/
def interval_contains_one (ci : ℚ × ℚ) : Bool :=
  decide (ci.1 < 1) && decide (1 < ci.2)

/-- The `for cl in conf_levels: ... if f(cl): break` loop.  The Python loop
variable `cl` keeps its value after the loop: the result is the first grid
point satisfying `f`, and the last grid point when none does.  The extra
argument carries the current value of `cl` (the default passed at the top
level is irrelevant because the grid is non-empty, matching Python, where an
empty grid would leave `cl` unbound). -/
def sweepCl (f : ℚ → Bool) : List ℚ → ℚ → ℚ
  | [], last => last
  | cl :: rest, _ => if f cl then cl else sweepCl f rest cl

/-- Embedding of `calculate_p_value(n, o, e)` (stats.py lines 78-88): sweep
`conf_levels` in order, stop at the first `cl` whose interval strictly
contains 1 (otherwise run the grid to its end), and return `1 - cl`. -/
def calculate_p_value (ppf : ℚ → ℚ → ℚ → ℚ) (n o e : ℚ) : ℚ :=
  1 - sweepCl (fun cl => interval_contains_one (ci_ote ppf n o e cl)) conf_levels 0

/-- Modelled from the spec: the p-value as claim C1 words it — `1 - cl` for
the FIRST swept confidence level whose interval EXCLUDES the value 1 (the
spec's exclusion predicate is the negation of `interval_contains_one`), the
last grid point serving as fallback.  This definition follows the claim's
words and is compared against `calculate_p_value`, which follows the code. -/
def claimedPValue (ppf : ℚ → ℚ → ℚ → ℚ) (n o e : ℚ) : ℚ :=
  1 - ((conf_levels.find?
        (fun cl => !(interval_contains_one (ci_ote ppf n o e cl)))).getD
      (conf_levels.getLastD 0))

/-! ## Generic lemmas about the sweep loop and the grid -/

theorem sweepCl_eq_find (f : ℚ → Bool) :
    ∀ (cls : List ℚ) (d : ℚ), sweepCl f cls d = (cls.find? f).getD (cls.getLastD d) := by
  intro cls
  induction cls with
  | nil => intro d; rfl
  | cons cl rest ih =>
    intro d
    by_cases h : f cl
    · simp [sweepCl, h, List.find?_cons_of_pos]
    · rw [List.find?_cons_of_neg _ h, List.getLastD_cons]
      simpa [sweepCl, h] using ih cl

theorem sweepCl_mem (f : ℚ → Bool) :
    ∀ (cls : List ℚ) (d : ℚ), cls ≠ [] → sweepCl f cls d ∈ cls := by
  intro cls
  induction cls with
  | nil => intro d h; exact absurd rfl h
  | cons cl rest ih =>
    intro d _
    by_cases h : f cl
    · simp [sweepCl, h]
    · rcases rest with _ | ⟨b, rest'⟩
      · simp [sweepCl, h]
      · simpa [sweepCl, h] using Or.inr (ih cl (by simp))

theorem find?_first_split {α : Type} {f : α → Bool} :
    ∀ {l : List α} {c : α}, l.find? f = some c →
      ∃ l1 l2, l = l1 ++ c :: l2 ∧ ∀ x ∈ l1, f x = false := by
  intro l
  induction l with
  | nil => intro c h; simp at h
  | cons a l ih =>
    intro c h
    by_cases hf : f a
    · rw [List.find?_cons_of_pos _ hf] at h
      obtain rfl : a = c := by simpa using h
      exact ⟨[], l, rfl, by simp⟩
    · rw [List.find?_cons_of_neg _ hf] at h
      obtain ⟨l1, l2, rfl, h1⟩ := ih h
      refine ⟨a :: l1, l2, rfl, ?_⟩
      intro x hx
      rcases List.mem_cons.mp hx with rfl | hx'
      · exact Bool.eq_false_iff.mpr hf
      · exact h1 x hx'

theorem npArange_mem_bounds {s t step : ℚ} (hstep : 0 < step) :
    ∀ x ∈ npArange s t step, s ≤ x ∧ x < t := by
  intro x hx
  unfold npArange at hx
  obtain ⟨k, hk, rfl⟩ := List.mem_map.mp hx
  rw [List.mem_range] at hk
  have hk' : (k : ℚ) < (t - s) / step := by
    have h1 : ((k : ℤ) : ℚ) < (⌈(t - s) / step⌉ : ℚ) := by
      exact_mod_cast Int.lt_toNat.mp hk
    have h2 : ((⌈(t - s) / step⌉ : ℤ) : ℚ) < (t - s) / step + 1 :=
      Int.ceil_lt_add_one ((t - s) / step)
    have h3 : ((k : ℤ) : ℚ) + 1 ≤ (⌈(t - s) / step⌉ : ℚ) := by
      have : (k : ℤ) + 1 ≤ ⌈(t - s) / step⌉ := Int.lt_toNat.mp hk
      exact_mod_cast this
    push_cast at h1 h2 h3 ⊢
    linarith
  constructor
  · have : 0 ≤ (k : ℚ) * step := mul_nonneg (Nat.cast_nonneg k) hstep.le
    linarith
  · have : (k : ℚ) * step < t - s := by
      have := (lt_div_iff₀ hstep).mp hk'
      linarith
    linarith

theorem npArange_pairwise {s t step : ℚ} (hstep : 0 < step) :
    (npArange s t step).Pairwise (· < ·) := by
  unfold npArange
  refine List.Pairwise.map _ ?_ (List.pairwise_lt_range _)
  intro a b hab
  have : (a : ℚ) < (b : ℚ) := by exact_mod_cast hab
  have := mul_lt_mul_of_pos_right this hstep
  linarith

theorem conf_levels_sorted : conf_levels.Pairwise (· < ·) := by
  have b1 := @npArange_mem_bounds 0.01 0.99 0.01 (by norm_num)
  have b2 := @npArange_mem_bounds 0.99 0.999 0.001 (by norm_num)
  have b3 := @npArange_mem_bounds 0.999 1 0.0001 (by norm_num)
  unfold conf_levels
  rw [List.pairwise_append]
  refine ⟨?_, ?_, ?_⟩
  · rw [List.pairwise_append]
    refine ⟨npArange_pairwise (by norm_num), npArange_pairwise (by norm_num), ?_⟩
    intro x hx y hy
    have hxu := (b1 x hx).2
    have hyl := (b2 y hy).1
    linarith
  · exact npArange_pairwise (by norm_num)
  · intro x hx z hz
    have hzl := (b3 z hz).1
    rcases List.mem_append.mp hx with hx1 | hx2
    · have := (b1 x hx1).2
      linarith
    · have := (b2 x hx2).2
      linarith

theorem conf_levels_ne_nil : conf_levels ≠ [] := by
  have : (0.01 : ℚ) ∈ conf_levels := by
    unfold conf_levels
    refine List.mem_append.mpr (Or.inl (List.mem_append.mpr (Or.inl ?_)))
    unfold npArange
    refine List.mem_map.mpr ⟨0, List.mem_range.mpr ?_, by norm_num⟩
    norm_num
  exact List.ne_nil_of_mem this

theorem npArange_le {s t step : ℚ} (hstep : 0 < step) (m : ℕ)
    (hm : (⌈(t - s) / step⌉).toNat ≤ m + 1) :
    ∀ x ∈ npArange s t step, x ≤ s + (m : ℚ) * step := by
  intro x hx
  unfold npArange at hx
  obtain ⟨k, hk, rfl⟩ := List.mem_map.mp hx
  rw [List.mem_range] at hk
  have hkm : k ≤ m := by omega
  have : (k : ℚ) * step ≤ (m : ℚ) * step :=
    mul_le_mul_of_nonneg_right (by exact_mod_cast hkm) hstep.le
  linarith

theorem conf_levels_bounds : ∀ x ∈ conf_levels, 1/100 ≤ x ∧ x ≤ 9999/10000 := by
  intro x hx
  unfold conf_levels at hx
  rcases List.mem_append.mp hx with h12 | h3
  · rcases List.mem_append.mp h12 with h1 | h2
    · have := npArange_mem_bounds (by norm_num : (0:ℚ) < 0.01) x h1
      constructor <;> [linarith [this.1]; linarith [this.2]]
    · have := npArange_mem_bounds (by norm_num : (0:ℚ) < 0.001) x h2
      constructor <;> [linarith [this.1]; linarith [this.2]]
  · have hl := (npArange_mem_bounds (by norm_num : (0:ℚ) < 0.0001) x h3).1
    have hu := npArange_le (by norm_num : (0:ℚ) < 0.0001) 9 (by norm_num) x h3
    constructor <;> [linarith; linarith]

theorem getLastD_eq_sweepCl (cls : List ℚ) (d : ℚ) :
    cls.getLastD d = sweepCl (fun _ => false) cls d := by
  rw [sweepCl_eq_find, List.find?_eq_none.mpr (by simp)]
  rfl

set_option maxHeartbeats 1000000 in
theorem conf_levels_getLastD : conf_levels.getLastD 0 = 9999/10000 := by
  rw [getLastD_eq_sweepCl]
  norm_num [conf_levels, npArange, sweepCl]

/-! ## Nesting of the equal-tailed intervals in the confidence level -/

theorem contains_one_iff (ci : ℚ × ℚ) :
    interval_contains_one ci = true ↔ ci.1 < 1 ∧ 1 < ci.2 := by
  simp [interval_contains_one]

theorem ci_ote_nested (ppf : ℚ → ℚ → ℚ → ℚ) (n o e : ℚ) (hn : 0 ≤ n) (he : 0 < e)
    (hmono : ∀ q1 q2 : ℚ, q1 ≤ q2 →
      ppf (1/2 + o) (1/2 + (n - o)) q1 ≤ ppf (1/2 + o) (1/2 + (n - o)) q2)
    {cl cl' : ℚ} (hcl : cl ≤ cl') :
    (ci_ote ppf n o e cl').1 ≤ (ci_ote ppf n o e cl).1 ∧
      (ci_ote ppf n o e cl).2 ≤ (ci_ote ppf n o e cl').2 := by
  constructor
  · by_cases ho : o = 0
    · simp [ci_ote, ho]
    · have h := hmono ((1 - cl')/2) ((1 - cl)/2) (by linarith)
      simp only [ci_ote, if_neg ho]
      exact div_le_div_of_nonneg_right (mul_le_mul_of_nonneg_right h hn) he.le
  · by_cases hno : n = o
    · simp [ci_ote, hno]
    · have h := hmono ((1 + cl)/2) ((1 + cl')/2) (by linarith)
      simp only [ci_ote, if_neg hno]
      exact div_le_div_of_nonneg_right (mul_le_mul_of_nonneg_right h hn) he.le

theorem contains_one_mono (ppf : ℚ → ℚ → ℚ → ℚ) (n o e : ℚ) (hn : 0 ≤ n) (he : 0 < e)
    (hmono : ∀ q1 q2 : ℚ, q1 ≤ q2 →
      ppf (1/2 + o) (1/2 + (n - o)) q1 ≤ ppf (1/2 + o) (1/2 + (n - o)) q2)
    {cl cl' : ℚ} (hcl : cl ≤ cl')
    (h : interval_contains_one (ci_ote ppf n o e cl) = true) :
    interval_contains_one (ci_ote ppf n o e cl') = true := by
  rw [contains_one_iff] at h ⊢
  obtain ⟨h1, h2⟩ := ci_ote_nested ppf n o e hn he hmono hcl
  exact ⟨lt_of_le_of_lt h1 h.1, lt_of_lt_of_le h.2 h2⟩

/-! ## Claim C4: edge corrections -/

/-- C4: for every `(n, o, e, cl)`, if `o = 0` the interval returned by
`ci_ote` has lower bound exactly 0, and if `o = n` it has upper bound exactly
`n / e` (the upper probability-scale quantile is replaced by 1 before
rescaling by `n / e`). -/
theorem C4_edge_correction (ppf : ℚ → ℚ → ℚ → ℚ) (n o e cl : ℚ) :
    (o = 0 → (ci_ote ppf n o e cl).1 = 0) ∧
      (o = n → (ci_ote ppf n o e cl).2 = n / e) := by
  constructor
  · intro h; simp [ci_ote, h]
  · intro h; simp [ci_ote, h]

/-- Witness for C4 at the spec's own examples `n=10, o=0, e=2` and
`n=10, o=10, e=5`. -/
theorem C4_edge_correction_witness :
    (ci_ote ppfId 10 0 2 (19/20)).1 = 0 ∧ (ci_ote ppfId 10 10 5 (19/20)).2 = 10 / 5 :=
  ⟨(C4_edge_correction ppfId 10 0 2 (19/20)).1 rfl,
   (C4_edge_correction ppfId 10 10 5 (19/20)).2 rfl⟩

/-! ## Claim C5: monotonicity in the confidence level -/

/-- C5: for fixed valid `(n, o, e)` and confidence levels `cl1 < cl2` in
`(0, 1)`, the interval at `cl2` contains the interval at `cl1`: lower bound at
`cl2` is at most the one at `cl1`, upper bound at `cl2` is at least the one at
`cl1`.  The hypothesis `hmono` is the monotonicity of the Beta quantile
function in its probability argument, a fact of the external routine the
embedding abstracts (see header). -/
theorem C5_interval_nesting (ppf : ℚ → ℚ → ℚ → ℚ) (n o e cl1 cl2 : ℚ)
    (hn : 0 < n) (he : 0 < e)
    (hmono : ∀ q1 q2 : ℚ, q1 ≤ q2 →
      ppf (1/2 + o) (1/2 + (n - o)) q1 ≤ ppf (1/2 + o) (1/2 + (n - o)) q2)
    (hcl1 : 0 < cl1) (hcl12 : cl1 < cl2) (hcl2 : cl2 < 1) :
    (ci_ote ppf n o e cl2).1 ≤ (ci_ote ppf n o e cl1).1 ∧
      (ci_ote ppf n o e cl1).2 ≤ (ci_ote ppf n o e cl2).2 :=
  ci_ote_nested ppf n o e hn.le he hmono hcl12.le

/-- Witness for C5 at `ppfId` (Beta(1,1)), `n=1, o=1/2, e=1/2`, `cl1=1/4`,
`cl2=1/2`. -/
theorem C5_interval_nesting_witness :
    (ci_ote ppfId 1 (1/2) (1/2) (1/2)).1 ≤ (ci_ote ppfId 1 (1/2) (1/2) (1/4)).1 ∧
      (ci_ote ppfId 1 (1/2) (1/2) (1/4)).2 ≤ (ci_ote ppfId 1 (1/2) (1/2) (1/2)).2 :=
  C5_interval_nesting ppfId 1 (1/2) (1/2) (1/4) (1/2) (by norm_num) (by norm_num)
    (fun _ _ h => h) (by norm_num) (by norm_num) (by norm_num)

/-! ## Claim C1: the stopping rule of the significance sweep -/

/-- C1 (amended): `calculate_p_value` sweeps the three-tier grid in strictly
increasing order and returns `1 - cl` for the FIRST confidence level `cl`
whose interval strictly CONTAINS the value 1 (stats.py line 86:
`ci[0] < 1 and 1 < ci[1]`), falling back to the last grid point when no
interval contains 1.  The claim as frozen says the sweep stops at the first
level whose interval excludes 1; `C1_counterexample` refutes that reading. -/
theorem C1_sweep_stops_at_first_containing (ppf : ℚ → ℚ → ℚ → ℚ) (n o e : ℚ) :
    List.Chain' (· < ·) conf_levels ∧
      calculate_p_value ppf n o e =
        1 - ((conf_levels.find?
              (fun cl => interval_contains_one (ci_ote ppf n o e cl))).getD
            (conf_levels.getLastD 0)) := by
  constructor
  · exact List.chain'_iff_pairwise.mpr conf_levels_sorted
  · unfold calculate_p_value
    rw [sweepCl_eq_find]

set_option maxHeartbeats 4000000 in
/-- Counterexample to C1 as stated.  At `n = 1`, `o = 1/2`, `e = 1` (a valid
input where the program's Beta distribution is exactly Beta(1,1), modelled by
`ppfId`), every swept interval excludes 1, so the first level whose interval
excludes 1 is the first grid point 0.01 and the claim's stopping rule
(`claimedPValue`) yields 0.99 — but the code returns 1/10000. -/
theorem C1_counterexample :
    calculate_p_value ppfId 1 (1/2) 1 = 1/10000 ∧
      claimedPValue ppfId 1 (1/2) 1 = 99/100 ∧
      ¬ calculate_p_value ppfId 1 (1/2) 1 = claimedPValue ppfId 1 (1/2) 1 := by
  have h1 : calculate_p_value ppfId 1 (1/2) 1 = 1/10000 := by
    norm_num [calculate_p_value, conf_levels, npArange, sweepCl, ci_ote,
      interval_contains_one, ppfId]
  have h2 : claimedPValue ppfId 1 (1/2) 1 = 99/100 := by
    norm_num [claimedPValue, conf_levels, npArange, List.find?, ci_ote,
      interval_contains_one, ppfId]
  refine ⟨h1, h2, ?_⟩
  rw [h1, h2]
  norm_num

/-! ## Claim C2: behavior when the sweep never breaks -/

/-- C2 (amended): if NO confidence level in the grid yields an interval that
strictly contains 1 (the loop's break condition never fires), the sweep runs
the whole grid without raising any error and returns `1 - 0.9999 = 1/10000`,
the complement of the last grid point.  The claim as frozen attaches this
outcome to the hypothesis that every interval CONTAINS 1;
`C2_counterexample` shows that under that hypothesis the code returns 0.99
instead. -/
theorem C2_floor_when_no_containment (ppf : ℚ → ℚ → ℚ → ℚ) (n o e : ℚ)
    (h : ∀ cl ∈ conf_levels, interval_contains_one (ci_ote ppf n o e cl) = false) :
    calculate_p_value ppf n o e = 1/10000 := by
  unfold calculate_p_value
  rw [sweepCl_eq_find,
    List.find?_eq_none.mpr (fun x hx => by simp [h x hx]),
    Option.getD_none, conf_levels_getLastD]
  norm_num

set_option maxHeartbeats 4000000 in
/-- Witness for C2 (amended) at `ppfId`, `n = 1`, `o = 1/2`, `e = 1`: every
swept interval is `((1-cl)/2, (1+cl)/2) ⊆ (0,1)`, which never contains 1. -/
theorem C2_floor_when_no_containment_witness :
    calculate_p_value ppfId 1 (1/2) 1 = 1/10000 :=
  C2_floor_when_no_containment ppfId 1 (1/2) 1 (by
    intro cl hcl
    have h2 : cl ≤ 9999/10000 := (conf_levels_bounds cl hcl).2
    have hci : ci_ote ppfId 1 (1/2) 1 cl = ((1 - cl)/2, (1 + cl)/2) := by
      simp only [ci_ote, ppfId]
      norm_num [Prod.ext_iff]
    have hle : (ci_ote ppfId 1 (1/2) 1 cl).2 ≤ 1 := by
      rw [hci]
      show (1 + cl)/2 ≤ 1
      linarith
    have hnlt : ¬ (1 < (ci_ote ppfId 1 (1/2) 1 cl).2) := not_lt.mpr hle
    cases hb : interval_contains_one (ci_ote ppfId 1 (1/2) 1 cl) with
    | false => rfl
    | true => exact absurd ((contains_one_iff _).mp hb).2 hnlt)

set_option maxHeartbeats 4000000 in
/-- Counterexample to C2 as stated.  At `ppfId` (Beta(1,1)), `n = 1`,
`o = 1/2`, `e = 1/2`, every swept interval `(1-cl, 1+cl)` strictly contains 1
— so no level excludes 1, the hypothesis of C2 — yet the code returns `0.99`
(it breaks at the very first grid point), not the claimed `≈ 1 - 0.9999`. -/
theorem C2_counterexample :
    (∀ cl ∈ conf_levels, interval_contains_one (ci_ote ppfId 1 (1/2) (1/2) cl) = true) ∧
      calculate_p_value ppfId 1 (1/2) (1/2) = 99/100 ∧
      ¬ (99/100 : ℚ) = 1/10000 := by
  have hci : ∀ cl : ℚ, ci_ote ppfId 1 (1/2) (1/2) cl = (1 - cl, 1 + cl) := by
    intro cl
    simp only [ci_ote, ppfId]
    norm_num
    constructor <;> ring
  refine ⟨?_, ?_, by norm_num⟩
  · intro cl hcl
    have h1 : 1/100 ≤ cl := (conf_levels_bounds cl hcl).1
    rw [contains_one_iff, hci]
    constructor <;> [skip; skip] <;> simp <;> linarith
  · norm_num [calculate_p_value, conf_levels, npArange, sweepCl, ci_ote,
      interval_contains_one, ppfId]

/-! ## Claim C10: range of the returned p-value -/

/-- C10: for every `ppf` and every `(n, o, e)`, the returned p-value lies
between `1 - 0.9999 = 1/10000` (complement of the largest grid level) and
`1 - 0.01 = 0.99` (complement of the first grid level); in particular the
value 1 is never returned. -/
theorem C10_pvalue_range (ppf : ℚ → ℚ → ℚ → ℚ) (n o e : ℚ) :
    1/10000 ≤ calculate_p_value ppf n o e ∧
      calculate_p_value ppf n o e ≤ 99/100 ∧
      calculate_p_value ppf n o e ≠ 1 := by
  have hmem := sweepCl_mem (fun cl => interval_contains_one (ci_ote ppf n o e cl))
    conf_levels 0 conf_levels_ne_nil
  have hb := conf_levels_bounds _ hmem
  unfold calculate_p_value
  refine ⟨by linarith [hb.2], by linarith [hb.1], ?_⟩
  intro hcontra
  have : sweepCl (fun cl => interval_contains_one (ci_ote ppf n o e cl))
      conf_levels 0 = 0 := by linarith
  linarith [hb.1]

/-! ## Claim C9: duality between the interval and the p-value -/

theorem mem_conf_levels_tier1 (k : ℕ) (hk : k < 98) :
    (1/100 + (k : ℚ) * (1/100)) ∈ conf_levels := by
  unfold conf_levels
  refine List.mem_append.mpr (Or.inl (List.mem_append.mpr (Or.inl ?_)))
  unfold npArange
  refine List.mem_map.mpr ⟨k, List.mem_range.mpr ?_, by norm_num⟩
  have hc : (⌈((0.99 : ℚ) - 0.01) / 0.01⌉ : ℤ) = 98 := by norm_num
  rw [hc]
  omega

/-- C9 (amended): fix a valid `(n, o, e)` and a significance level `p` whose
complement `1 - p` is a swept grid level, and suppose the sweep actually
breaks (some swept interval strictly contains 1; when no interval contains 1
the sweep is exhausted and the p-value is the 1/10000 floor of C2).  Then the
interval at confidence level `1 - p` excludes the value 1 (does not strictly
contain it) if and only if `calculate_p_value n o e < p` — with STRICT
inequality; `C9_counterexample` shows the claim's non-strict `≤` fails at
`p` equal to the returned p-value.  `hmono` is monotonicity of the Beta
quantile function (see header). -/
theorem C9_duality (ppf : ℚ → ℚ → ℚ → ℚ) (n o e p : ℚ)
    (hn : 0 ≤ n) (he : 0 < e)
    (hmono : ∀ q1 q2 : ℚ, q1 ≤ q2 →
      ppf (1/2 + o) (1/2 + (n - o)) q1 ≤ ppf (1/2 + o) (1/2 + (n - o)) q2)
    (hp : (1 - p) ∈ conf_levels)
    (hEx : ∃ cl ∈ conf_levels, interval_contains_one (ci_ote ppf n o e cl) = true) :
    interval_contains_one (ci_ote ppf n o e (1 - p)) = false ↔
      calculate_p_value ppf n o e < p := by
  have hpv : calculate_p_value ppf n o e =
      1 - sweepCl (fun cl => interval_contains_one (ci_ote ppf n o e cl)) conf_levels 0 := rfl
  cases hfind : conf_levels.find? (fun cl => interval_contains_one (ci_ote ppf n o e cl)) with
  | none =>
    exfalso
    obtain ⟨cl, hcl, hcl2⟩ := hEx
    exact absurd hcl2 (List.find?_eq_none.mp hfind cl hcl)
  | some c0 =>
    have hstop : sweepCl (fun cl => interval_contains_one (ci_ote ppf n o e cl))
        conf_levels 0 = c0 := by
      rw [sweepCl_eq_find, hfind]
      rfl
    have hfc0' := List.find?_some hfind
    have hfc0 : interval_contains_one (ci_ote ppf n o e c0) = true := hfc0'
    obtain ⟨l1, l2, hsplit, hl1⟩ := find?_first_split hfind
    constructor
    · intro hexc
      rw [hpv, hstop]
      by_contra hcon
      push_neg at hcon
      have hle : c0 ≤ 1 - p := by linarith
      have htrue := contains_one_mono ppf n o e hn he hmono hle hfc0
      rw [htrue] at hexc
      exact absurd hexc (by simp)
    · intro hlt
      rw [hpv, hstop] at hlt
      have hcp : 1 - p < c0 := by linarith
      have hsort := conf_levels_sorted
      rw [hsplit] at hp hsort
      rcases List.mem_append.mp hp with hmem1 | hmem2
      · exact hl1 _ hmem1
      · exfalso
        rcases List.mem_cons.mp hmem2 with heq | hmem3
        · rw [heq] at hcp
          exact lt_irrefl _ hcp
        · have hlt2 : c0 < 1 - p :=
            (List.pairwise_cons.mp (List.pairwise_append.mp hsort).2.1).1 _ hmem3
          linarith

/-- Witness for C9 (amended) at `ppfId` (Beta(1,1)), `n = 1`, `o = 1/2`,
`e = 1/2`, `p = 1/2`: the interval at level `1/2` contains 1, and the p-value
0.99 is not below 1/2, so both sides of the equivalence are false. -/
theorem C9_duality_witness :
    interval_contains_one (ci_ote ppfId 1 (1/2) (1/2) (1 - 1/2)) = false ↔
      calculate_p_value ppfId 1 (1/2) (1/2) < 1/2 :=
  C9_duality ppfId 1 (1/2) (1/2) (1/2) (by norm_num) (by norm_num)
    (fun _ _ h => h)
    (by have := mem_conf_levels_tier1 49 (by norm_num)
        norm_num at this ⊢
        exact this)
    ⟨1/100, by
      have := mem_conf_levels_tier1 0 (by norm_num)
      norm_num at this
      exact this, by
      norm_num [ci_ote, interval_contains_one, ppfId]⟩

/-- Counterexample to C9 as stated (with non-strict `≤`).  At `ppfId`
(Beta(1,1)), `n = 1`, `o = 1/2`, `e = 1/2` the returned p-value is exactly
0.99; take `p = 99/100`, whose complement 0.01 is a swept level.  The interval
at confidence level 0.01 strictly contains 1 — so it does NOT exclude 1 —
while `p_value ≤ p` holds; the claimed equivalence is therefore false. -/
theorem C9_counterexample :
    ¬ (interval_contains_one (ci_ote ppfId 1 (1/2) (1/2) (1 - 99/100)) = false ↔
        calculate_p_value ppfId 1 (1/2) (1/2) ≤ 99/100) := by
  have hpv : calculate_p_value ppfId 1 (1/2) (1/2) = 99/100 := by
    norm_num [calculate_p_value, conf_levels, npArange, sweepCl, ci_ote,
      interval_contains_one, ppfId]
  have hcontains :
      interval_contains_one (ci_ote ppfId 1 (1/2) (1/2) (1 - 99/100)) = true := by
    norm_num [ci_ote, interval_contains_one, ppfId]
  intro hiff
  have h1 := hiff.mpr (le_of_eq hpv)
  rw [hcontains] at h1
  exact absurd h1 (by simp)

/-! ## Claim C7: HDI engine and the minimizer's convergence status -/

/-- C7 (amended): `calculate_beta_hdi` cannot observe the minimizer's
convergence status.  Two minimizers returning the same final iterate but
opposite convergence flags (scipy's `warnflag`, set when the iteration cap is
exceeded) give identical results: the code keeps only `fmin(...)[0]` and
returns an interval unconditionally, so no distinguishable
`NumericalNonconvergence` failure reaches the caller. -/
theorem C7_flag_unobservable (ppf : ℚ → ℚ → ℚ → ℚ)
    (fm1 fm2 : (ℚ → ℚ) → ℚ → ℚ × Bool) (a b p : ℚ)
    (h : ∀ f x0, (fm1 f x0).1 = (fm2 f x0).1) :
    calculate_beta_hdi ppf fm1 a b p = calculate_beta_hdi ppf fm2 a b p := by
  unfold calculate_beta_hdi
  simp only [h]

/-- Witness for C7 (amended): concrete minimizers returning the same iterate,
one reporting convergence and one reporting nonconvergence. -/
theorem C7_flag_unobservable_witness :
    calculate_beta_hdi ppfId (fun _ x0 => (x0, false)) 1 1 (1/2) =
      calculate_beta_hdi ppfId (fun _ x0 => (x0, true)) 1 1 (1/2) :=
  C7_flag_unobservable ppfId (fun _ x0 => (x0, false)) (fun _ x0 => (x0, true))
    1 1 (1/2) (fun _ _ => rfl)

/-- Counterexample to C7 as stated: on a run whose minimizer reports
nonconvergence (flag `false`, modelling `fmin` exceeding its iteration cap
without meeting tolerance), `ci_ote_hdi` still returns a plain interval —
here `(1, 2)` at `n = 1`, `o = 1/2`, `e = 1/2`, `cl = 1/2` — instead of
surfacing a failure. -/
theorem C7_counterexample :
    ci_ote_hdi ppfId (fun _ x0 => (x0, false)) 1 (1/2) (1/2) (1/2) = (1, 2) := by
  norm_num [ci_ote_hdi, calculate_beta_hdi, ppfId, Prod.ext_iff]

/-! ## Multiplicity adjustment: `BH_adjusted_pval` (stats.py lines 118-140) -/

/-- Denotation of `pandas.Series.rank()` with the default `method='average'`,
ascending: the rank of a value `v` occurring in the series is the average of
the 1-based positions the copies of `v` occupy after sorting, namely
`#{u | u < v} + (#{u | u = v} + 1) / 2`. -/
def rankFun (ps : List ℚ) (v : ℚ) : ℚ :=
  (ps.countP (fun u => decide (u < v)) : ℚ) +
    ((ps.countP (fun u => decide (u = v)) : ℚ) + 1) / 2

/-- The `rank` column of stats.py line 133. -/
def pandasRank (ps : List ℚ) : List ℚ :=
  ps.map (rankFun ps)

/-- One row of the DataFrame built in stats.py lines 132-133: original
position (the pandas index), p-value, and rank. -/
structure BHRow where
  idx : ℕ
  pval : ℚ
  rank : ℚ
deriving DecidableEq

/-- The DataFrame of stats.py lines 132-133: index `0, 1, …`, the p-value
column, and the average-rank column. -/
def mkRows (ps : List ℚ) : List BHRow :=
  (List.range ps.length).map (fun i => ⟨i, ps.getD i 0, (pandasRank ps).getD i 0⟩)

/-- Sort key of `sort_values(by="rank", ascending=False)` (stats.py 134). -/
def rankDesc (x y : BHRow) : Prop := y.rank ≤ x.rank

instance : DecidableRel rankDesc := fun x y => inferInstanceAs (Decidable (y.rank ≤ x.rank))

instance : IsTotal BHRow rankDesc := ⟨fun a b => le_total b.rank a.rank⟩

instance : IsTrans BHRow rankDesc := ⟨fun _ _ _ h1 h2 => le_trans h2 h1⟩

/-- Sort key of `sort_index()` (stats.py 139) on rows paired with their
adjusted value. -/
def idxAsc (x y : BHRow × ℚ) : Prop := x.1.idx ≤ y.1.idx

instance : DecidableRel idxAsc := fun x y => inferInstanceAs (Decidable (x.1.idx ≤ y.1.idx))

instance : IsTotal (BHRow × ℚ) idxAsc := ⟨fun a b => Nat.le_total a.1.idx b.1.idx⟩

instance : IsTrans (BHRow × ℚ) idxAsc := ⟨fun _ _ _ h1 h2 => Nat.le_trans h1 h2⟩

/-- Running minimum with accumulator, the tail worker of `cummin`. -/
def cumminAux (acc : ℚ) : List ℚ → List ℚ
  | [] => []
  | x :: xs => min acc x :: cumminAux (min acc x) xs

/-- The pandas `cummin` of a column (stats.py 135-137). -/
def cumminList : List ℚ → List ℚ
  | [] => []
  | x :: xs => x :: cumminAux x xs

/-- Embedding of `BH_adjusted_pval(p_vals)` (stats.py lines 118-140) on a
list of numeric p-values: build rank column, sort by rank descending, take
the running minimum of `p * N / rank`, clip at 1 (`np.minimum(_, 1)`),
restore the original index order (`sort_index`), return the adjusted column.
pandas' unstable quicksort is modelled by insertion sort; see the header for
why the choice is unobservable. -/
def BH_adjusted_pval (p_vals : List ℚ) : List ℚ :=
  ((List.insertionSort idxAsc
      ((List.insertionSort rankDesc (mkRows p_vals)).zip
        ((cumminList ((List.insertionSort rankDesc (mkRows p_vals)).map
            (fun r => r.pval * (p_vals.length : ℚ) / r.rank))).map
          (fun v => min v 1)))).map (fun x => x.2))

/-- The quotient `p * N / rank` of stats.py line 136. -/
def bhQuot (N : ℚ) (r : BHRow) : ℚ := r.pval * N / r.rank

/-- Fold a list with `min`, starting from the clip bound 1. -/
def minClip (l : List ℚ) : ℚ := l.foldr min 1

/-- The closed form the pipeline is proved equal to: the adjusted value of a
row is the minimum, clipped at 1, of the quotients of all rows of rank at
least its own. -/
def bhFormulaRow (ps : List ℚ) (r : BHRow) : ℚ :=
  minClip (((mkRows ps).filter (fun x => decide (r.rank ≤ x.rank))).map
    (bhQuot (ps.length : ℚ)))

/-- Position-indexed closed form of the adjusted p-value. -/
def bhFormula (ps : List ℚ) (i : ℕ) : ℚ :=
  bhFormulaRow ps ⟨i, ps.getD i 0, (pandasRank ps).getD i 0⟩

/-! ### Elementary lemmas about `minClip` and `cummin` -/

theorem minClip_nil : minClip [] = 1 := rfl

theorem minClip_cons (a : ℚ) (l : List ℚ) : minClip (a :: l) = min a (minClip l) := rfl

theorem minClip_le_one (l : List ℚ) : minClip l ≤ 1 := by
  induction l with
  | nil => exact le_refl 1
  | cons a l ih => exact le_trans (min_le_right a (minClip l)) ih

theorem minClip_append (l1 l2 : List ℚ) :
    minClip (l1 ++ l2) = min (minClip l1) (minClip l2) := by
  induction l1 with
  | nil => exact (min_eq_right (minClip_le_one l2)).symm
  | cons a l1 ih => rw [List.cons_append, minClip_cons, ih, minClip_cons, min_assoc]

theorem minClip_sublist {l1 l2 : List ℚ} (h : l1.Sublist l2) : minClip l2 ≤ minClip l1 := by
  induction h with
  | slnil => exact le_refl 1
  | cons a _ ih => exact le_trans (min_le_right _ _) ih
  | cons₂ a _ ih => exact min_le_min (le_refl a) ih

theorem min_eq_min_min_one {a : ℚ} (q : ℚ) (ha : a ≤ 1) : min a q = min a (min q 1) := by
  rcases le_total q 1 with h | h
  · rw [min_eq_left h]
  · rw [min_eq_right h, min_eq_left (le_trans ha h), min_eq_left ha]

theorem min_minClip_const {l : List ℚ} {v : ℚ} (h : ∀ x ∈ l, x = v) :
    min v (minClip l) = min v 1 := by
  induction l with
  | nil => rfl
  | cons a l ih =>
    have ha : a = v := h a (List.mem_cons_self a l)
    rw [minClip_cons, ha, ← min_assoc, min_self]
    exact ih (fun x hx => h x (List.mem_cons_of_mem a hx))

theorem cumminAux_map_min_one (l : List ℚ) :
    ∀ a : ℚ, (cumminAux a l).map (fun v => min v 1) = cumminAux (min a 1) l := by
  induction l with
  | nil => intro a; rfl
  | cons x xs ih =>
    intro a
    show min (min a x) 1 :: (cumminAux (min a x) xs).map (fun v => min v 1) =
      min (min a 1) x :: cumminAux (min (min a 1) x) xs
    rw [ih (min a x), min_right_comm]

theorem cumminList_clip (l : List ℚ) :
    (cumminList l).map (fun v => min v 1) = cumminAux 1 l := by
  cases l with
  | nil => rfl
  | cons x xs =>
    show min x 1 :: (cumminAux x xs).map (fun v => min v 1) = min 1 x :: cumminAux (min 1 x) xs
    rw [cumminAux_map_min_one, min_comm x 1]

/-! ### Properties of the average rank -/

theorem countP_lt_add_countP_eq (ps : List ℚ) (v : ℚ) :
    ps.countP (fun u => decide (u < v)) + ps.countP (fun u => decide (u = v)) =
      ps.countP (fun u => decide (u ≤ v)) := by
  induction ps with
  | nil => rfl
  | cons a l ih =>
    simp only [List.countP_cons]
    rcases lt_trichotomy a v with h | h | h
    · rw [if_pos (decide_eq_true h), if_neg (by simp [h.ne]),
        if_pos (decide_eq_true h.le)]
      omega
    · rw [if_neg (by simp [h]), if_pos (by simp [h]), if_pos (by simp [h.le])]
      omega
    · rw [if_neg (by simp [not_lt.mpr h.le]), if_neg (by simp [ne_of_gt h]),
        if_neg (by simp [not_le.mpr h])]
      omega

theorem one_le_countP_eq {ps : List ℚ} {v : ℚ} (hv : v ∈ ps) :
    1 ≤ ps.countP (fun u => decide (u = v)) :=
  List.countP_pos_iff.mpr ⟨v, hv, by simp⟩

theorem rankFun_lt {ps : List ℚ} {v w : ℚ} (hv : v ∈ ps) (hw : w ∈ ps) (hvw : v < w) :
    rankFun ps v < rankFun ps w := by
  have h1 : ps.countP (fun u => decide (u < v)) + ps.countP (fun u => decide (u = v)) ≤
      ps.countP (fun u => decide (u < w)) := by
    rw [countP_lt_add_countP_eq]
    refine List.countP_mono_left (fun x _ hx => ?_)
    simp only [decide_eq_true_eq] at hx ⊢
    exact lt_of_le_of_lt hx hvw
  have h2 := one_le_countP_eq hv
  have h3 := one_le_countP_eq hw
  unfold rankFun
  have c1 : ((ps.countP (fun u => decide (u < v)) : ℚ)) +
      (ps.countP (fun u => decide (u = v)) : ℚ) ≤
      (ps.countP (fun u => decide (u < w)) : ℚ) := by exact_mod_cast h1
  have c2 : (1 : ℚ) ≤ (ps.countP (fun u => decide (u = v)) : ℚ) := by exact_mod_cast h2
  have c3 : (1 : ℚ) ≤ (ps.countP (fun u => decide (u = w)) : ℚ) := by exact_mod_cast h3
  linarith

theorem rankFun_le_of_le {ps : List ℚ} {v w : ℚ} (hv : v ∈ ps) (hw : w ∈ ps)
    (hvw : v ≤ w) : rankFun ps v ≤ rankFun ps w := by
  rcases eq_or_lt_of_le hvw with rfl | h
  · exact le_refl _
  · exact (rankFun_lt hv hw h).le

theorem rankFun_inj {ps : List ℚ} {v w : ℚ} (hv : v ∈ ps) (hw : w ∈ ps)
    (h : rankFun ps v = rankFun ps w) : v = w := by
  rcases lt_trichotomy v w with hlt | heq | hgt
  · exact absurd h (ne_of_lt (rankFun_lt hv hw hlt))
  · exact heq
  · exact absurd h.symm (ne_of_lt (rankFun_lt hw hv hgt))

theorem mem_mkRows {ps : List ℚ} {r : BHRow} (h : r ∈ mkRows ps) :
    r.idx < ps.length ∧ r.pval = ps.getD r.idx 0 ∧
      r.rank = rankFun ps r.pval ∧ r.pval ∈ ps := by
  unfold mkRows at h
  obtain ⟨i, hi, rfl⟩ := List.mem_map.mp h
  rw [List.mem_range] at hi
  refine ⟨hi, rfl, ?_, ?_⟩
  · show (pandasRank ps).getD i 0 = rankFun ps (ps.getD i 0)
    unfold pandasRank
    rw [List.getD_eq_getElem _ 0 (by simpa using hi), List.getD_eq_getElem ps 0 hi]
    simp
  · rw [List.getD_eq_getElem ps 0 hi]
    exact List.getElem_mem hi

theorem bhQuot_congr_rank {ps : List ℚ} {r r' : BHRow}
    (hr : r ∈ mkRows ps) (hr' : r' ∈ mkRows ps) (h : r.rank = r'.rank) :
    bhQuot (ps.length : ℚ) r = bhQuot (ps.length : ℚ) r' := by
  obtain ⟨_, _, hk, hm⟩ := mem_mkRows hr
  obtain ⟨_, _, hk', hm'⟩ := mem_mkRows hr'
  have hpv : r.pval = r'.pval := by
    apply rankFun_inj hm hm'
    rw [← hk, ← hk', h]
  unfold bhQuot
  rw [hpv, h]

/-! ### The cummin characterization along the rank-sorted list -/

theorem cummin_zip_char (N : ℚ) :
    ∀ (s pre : List BHRow),
      (pre ++ s).Pairwise rankDesc →
      (∀ r ∈ pre ++ s, ∀ r' ∈ pre ++ s, r.rank = r'.rank → bhQuot N r = bhQuot N r') →
      s.zip (cumminAux (minClip (pre.map (bhQuot N))) (s.map (bhQuot N))) =
        s.map (fun r =>
          (r, minClip (((pre ++ s).filter
            (fun x => decide (r.rank ≤ x.rank))).map (bhQuot N)))) := by
  intro s
  induction s with
  | nil => intro pre _ _; rfl
  | cons h t ih =>
    intro pre hsort heq
    have hsort' : (pre ++ [h] ++ t).Pairwise rankDesc := by
      rwa [List.append_assoc, List.singleton_append]
    have heq' : ∀ r ∈ pre ++ [h] ++ t, ∀ r' ∈ pre ++ [h] ++ t,
        r.rank = r'.rank → bhQuot N r = bhQuot N r' := by
      rw [List.append_assoc, List.singleton_append]
      exact heq
    have hacc_le : minClip (pre.map (bhQuot N)) ≤ 1 := minClip_le_one _
    have hacc : min (minClip (pre.map (bhQuot N))) (bhQuot N h) =
        minClip ((pre ++ [h]).map (bhQuot N)) := by
      rw [List.map_append, minClip_append]
      show _ = min _ (minClip [bhQuot N h])
      rw [show minClip [bhQuot N h] = min (bhQuot N h) 1 from rfl]
      exact min_eq_min_min_one _ hacc_le
    have hpre : pre.filter (fun x => decide (h.rank ≤ x.rank)) = pre :=
      List.filter_eq_self.mpr (fun x hx =>
        decide_eq_true ((List.pairwise_append.mp hsort).2.2 x hx h
          (List.mem_cons_self _ _)))
    have htf : ∀ y ∈ t.filter (fun x => decide (h.rank ≤ x.rank)),
        bhQuot N y = bhQuot N h := by
      intro y hy
      obtain ⟨hyt, hydec⟩ := List.mem_filter.mp hy
      have h1 : h.rank ≤ y.rank := of_decide_eq_true hydec
      have h2 : rankDesc h y :=
        (List.pairwise_cons.mp (List.pairwise_append.mp hsort).2.1).1 y hyt
      have hrk : y.rank = h.rank := le_antisymm h2 h1
      exact heq y (List.mem_append.mpr (Or.inr (List.mem_cons_of_mem h hyt)))
        h (List.mem_append.mpr (Or.inr (List.mem_cons_self _ _))) hrk
    have hhead : min (minClip (pre.map (bhQuot N))) (bhQuot N h) =
        minClip (((pre ++ h :: t).filter
          (fun x => decide (h.rank ≤ x.rank))).map (bhQuot N)) := by
      rw [List.filter_append, hpre, List.filter_cons, if_pos (by simp)]
      rw [List.map_append, minClip_append, List.map_cons, minClip_cons]
      rw [min_minClip_const (fun x hx => by
        obtain ⟨y, hy, rfl⟩ := List.mem_map.mp hx
        exact htf y hy)]
      exact min_eq_min_min_one _ hacc_le
    show (h, min (minClip (pre.map (bhQuot N))) (bhQuot N h)) ::
        t.zip (cumminAux (min (minClip (pre.map (bhQuot N))) (bhQuot N h)) (t.map (bhQuot N))) =
      (h, minClip (((pre ++ h :: t).filter
          (fun x => decide (h.rank ≤ x.rank))).map (bhQuot N))) ::
        t.map (fun r =>
          (r, minClip (((pre ++ h :: t).filter
            (fun x => decide (r.rank ≤ x.rank))).map (bhQuot N))))
    have hhead2 : minClip ((pre ++ [h]).map (bhQuot N)) =
        minClip (((pre ++ h :: t).filter
          (fun x => decide (h.rank ≤ x.rank))).map (bhQuot N)) := by
      rw [← hacc]
      exact hhead
    rw [hacc, ih (pre ++ [h]) hsort' heq', List.append_assoc, List.singleton_append, hhead2]

instance : IsAntisymm (BHRow × ℚ) (fun x y => x.1.idx < y.1.idx) :=
  ⟨fun a b h1 h2 => absurd (h1.trans h2) (lt_irrefl _)⟩

/-- The BH pipeline computes, at each original position, the closed form
`bhFormula`: the cummin over the descending-rank order followed by clipping
and index restoration assigns to position `i` the clipped minimum of
`p * N / rank` over all rows of rank at least the rank at `i`. -/
theorem BH_eq (ps : List ℚ) :
    BH_adjusted_pval ps = (List.range ps.length).map (fun i => bhFormula ps i) := by
  have hperm : (List.insertionSort rankDesc (mkRows ps)).Perm (mkRows ps) :=
    List.perm_insertionSort rankDesc (mkRows ps)
  have hsort : List.Pairwise rankDesc (List.insertionSort rankDesc (mkRows ps)) :=
    List.sorted_insertionSort rankDesc (mkRows ps)
  have heq : ∀ r ∈ List.insertionSort rankDesc (mkRows ps),
      ∀ r' ∈ List.insertionSort rankDesc (mkRows ps),
      r.rank = r'.rank → bhQuot (ps.length : ℚ) r = bhQuot (ps.length : ℚ) r' :=
    fun r hr r' hr' h => bhQuot_congr_rank (hperm.subset hr) (hperm.subset hr') h
  have hfilter : ∀ r : BHRow,
      minClip (((List.insertionSort rankDesc (mkRows ps)).filter
        (fun x => decide (r.rank ≤ x.rank))).map (bhQuot (ps.length : ℚ))) =
      bhFormulaRow ps r := by
    intro r
    unfold bhFormulaRow minClip
    exact ((hperm.filter _).map _).foldr_eq 1
  have hcrux := cummin_zip_char (ps.length : ℚ)
    (List.insertionSort rankDesc (mkRows ps)) [] (by simpa using hsort) (by simpa using heq)
  simp only [List.nil_append, List.map_nil, minClip_nil] at hcrux
  unfold BH_adjusted_pval
  rw [show (fun r : BHRow => r.pval * (ps.length : ℚ) / r.rank) =
      bhQuot (ps.length : ℚ) from rfl, cumminList_clip, hcrux,
    List.map_congr_left (fun r _ => by rw [hfilter r] :
      ∀ r ∈ List.insertionSort rankDesc (mkRows ps), _ = _)]
  have hpermT : ((List.insertionSort rankDesc (mkRows ps)).map
      (fun r => (r, bhFormulaRow ps r))).Perm
      ((mkRows ps).map (fun r => (r, bhFormulaRow ps r))) := hperm.map _
  have hrows_pw : (mkRows ps).Pairwise (fun a b => a.idx < b.idx) := by
    unfold mkRows
    exact List.Pairwise.map _ (fun a b h => h) (List.pairwise_lt_range _)
  have htarget_pw : ((mkRows ps).map (fun r => (r, bhFormulaRow ps r))).Pairwise
      (fun x y => x.1.idx < y.1.idx) :=
    List.Pairwise.map _ (fun a b h => h) hrows_pw
  have hres_perm : (List.insertionSort idxAsc
      ((List.insertionSort rankDesc (mkRows ps)).map
        (fun r => (r, bhFormulaRow ps r)))).Perm
      ((mkRows ps).map (fun r => (r, bhFormulaRow ps r))) :=
    (List.perm_insertionSort idxAsc _).trans hpermT
  have hres_le : List.Pairwise idxAsc (List.insertionSort idxAsc
      ((List.insertionSort rankDesc (mkRows ps)).map
        (fun r => (r, bhFormulaRow ps r)))) :=
    List.sorted_insertionSort idxAsc _
  have hidx_eq : (((mkRows ps).map (fun r => (r, bhFormulaRow ps r))).map
      (fun x => x.1.idx)) = List.range ps.length := by
    rw [List.map_map]
    unfold mkRows
    rw [List.map_map]
    exact List.map_id _
  have hres_nodup : ((List.insertionSort idxAsc
      ((List.insertionSort rankDesc (mkRows ps)).map
        (fun r => (r, bhFormulaRow ps r)))).map (fun x => x.1.idx)).Nodup := by
    refine ((hres_perm.map (fun x => x.1.idx)).nodup_iff).mpr ?_
    rw [hidx_eq]
    exact List.nodup_range _
  have hres_ne : (List.insertionSort idxAsc
      ((List.insertionSort rankDesc (mkRows ps)).map
        (fun r => (r, bhFormulaRow ps r)))).Pairwise
      (fun x y => x.1.idx ≠ y.1.idx) := List.pairwise_map.mp hres_nodup
  have hres_lt : (List.insertionSort idxAsc
      ((List.insertionSort rankDesc (mkRows ps)).map
        (fun r => (r, bhFormulaRow ps r)))).Pairwise
      (fun x y => x.1.idx < y.1.idx) :=
    (hres_le.and hres_ne).imp (fun h => lt_of_le_of_ne h.1 h.2)
  have hfinal : List.insertionSort idxAsc
      ((List.insertionSort rankDesc (mkRows ps)).map
        (fun r => (r, bhFormulaRow ps r))) =
      (mkRows ps).map (fun r => (r, bhFormulaRow ps r)) :=
    List.eq_of_perm_of_sorted hres_perm hres_lt htarget_pw
  rw [hfinal, List.map_map]
  unfold mkRows bhFormula
  rw [List.map_map]
  rfl

theorem bhFormulaRow_mono {ps : List ℚ} {r r' : BHRow} (h : r.rank ≤ r'.rank) :
    bhFormulaRow ps r ≤ bhFormulaRow ps r' := by
  unfold bhFormulaRow
  refine minClip_sublist (List.Sublist.map _ (List.monotone_filter_right _ ?_))
  intro x hx
  simp only [decide_eq_true_eq] at hx ⊢
  exact le_trans h hx

/-! ## Claim C6: shape, clipping, alignment and monotonicity of BH -/

/-- C6: for every batch of p-values, `BH_adjusted_pval` returns a list of the
same length; every adjusted value is at most 1; the value at position `i` is
the closed form `bhFormula ps i` derived from the input at position `i` (the
alignment produced by `sort_index`); and the adjusted values are monotone
non-decreasing in the input p-values. -/
theorem C6_bh_shape (ps : List ℚ) :
    (BH_adjusted_pval ps).length = ps.length ∧
      (∀ x ∈ BH_adjusted_pval ps, x ≤ 1) ∧
      (∀ i, i < ps.length → (BH_adjusted_pval ps).getD i 0 = bhFormula ps i) ∧
      (∀ i j, i < ps.length → j < ps.length → ps.getD i 0 ≤ ps.getD j 0 →
        (BH_adjusted_pval ps).getD i 0 ≤ (BH_adjusted_pval ps).getD j 0) := by
  have hbe := BH_eq ps
  have hmem : ∀ k, k < ps.length → ps.getD k 0 ∈ ps := by
    intro k hk
    rw [List.getD_eq_getElem ps 0 hk]
    exact List.getElem_mem hk
  have hrank : ∀ k, k < ps.length →
      (pandasRank ps).getD k 0 = rankFun ps (ps.getD k 0) := by
    intro k hk
    unfold pandasRank
    rw [List.getD_eq_getElem _ 0 (by simpa using hk), List.getD_eq_getElem ps 0 hk]
    simp
  have hget : ∀ i, i < ps.length → (BH_adjusted_pval ps).getD i 0 = bhFormula ps i := by
    intro i hi
    rw [hbe, List.getD_eq_getElem _ 0 (by simpa using hi)]
    simp
  refine ⟨by rw [hbe]; simp, ?_, hget, ?_⟩
  · intro x hx
    rw [hbe] at hx
    obtain ⟨i, _, rfl⟩ := List.mem_map.mp hx
    exact minClip_le_one _
  · intro i j hi hj hle
    rw [hget i hi, hget j hj]
    unfold bhFormula
    apply bhFormulaRow_mono
    show (pandasRank ps).getD i 0 ≤ (pandasRank ps).getD j 0
    rw [hrank i hi, hrank j hj]
    exact rankFun_le_of_le (hmem i hi) (hmem j hj) hle

/-- Witness for C6 at the batch `[1/2, 1/4]`. -/
theorem C6_bh_shape_witness :
    (BH_adjusted_pval [1/2, 1/4]).length = 2 ∧
      (BH_adjusted_pval [1/2, 1/4]).getD 1 0 ≤ (BH_adjusted_pval [1/2, 1/4]).getD 0 0 :=
  ⟨(C6_bh_shape [1/2, 1/4]).1,
   (C6_bh_shape [1/2, 1/4]).2.2.2 1 0 (by norm_num) (by norm_num)
     (by norm_num [List.getD])⟩

/-! ## Claim C3: tied batches and the average-rank tie rule -/

set_option maxHeartbeats 2000000 in
/-- C3 (code bug): the code's behavior at the failing input `[0.3, 0.3]`.
pandas' default average rank gives both tied values rank 3/2, so the adjusted
values are `0.3 * 2 / (3/2) = 2/5 = 0.4` — not the common input value `0.3`
required by the claim (and produced by the standard Benjamini-Hochberg
step-up adjustment the docstring announces, which uses ordinal positions
1 and 2). -/
theorem C3_tied_batch_eval : BH_adjusted_pval [3/10, 3/10] = [2/5, 2/5] := by
  norm_num [BH_adjusted_pval, mkRows, pandasRank, rankFun, List.insertionSort,
    List.orderedInsert, cumminList, cumminAux, rankDesc, idxAsc, List.range_succ]

/-! ## Claim C8: input checking of `BH_adjusted_pval` -/

/-- Python value model for the argument of `BH_adjusted_pval` (stats.py lines
125-130): a number (`int`/`float`, not `Iterable`) or a list (`Iterable`).
`None` is outside the model: it is also non-iterable, but as a list element
pandas coerces it to the float `NaN`, which this exact-rational embedding
does not represent; strings (iterable, and numerically parsed or rejected by
`float()`) are outside the model for the same reason of scope. -/
inductive PyVal where
  | num (q : ℚ)
  | pylist (xs : List PyVal)

/-- Model of `isinstance(p_vals, Iterable)` (stats.py line 125). -/
def PyVal.isIterable : PyVal → Bool
  | .pylist _ => true
  | _ => false

/-- Model of `pd.Series(p_vals).astype(float)` (stats.py lines 126, 132):
numbers coerce to themselves; a list element makes `astype(float)` raise
(`float()` does not accept a list), failing the whole coercion. -/
def seriesAstypeFloat : List PyVal → Option (List ℚ)
  | [] => some []
  | .num q :: xs => (seriesAstypeFloat xs).map (fun l => q :: l)
  | .pylist _ :: _ => none

/-- The two failure modes of `BH_adjusted_pval`: the explicit `ValueError`
raised at stats.py lines 128-130, whose message names the received value
(modelled by the carried `PyVal`), and the distinct `TypeError` raised
inside `astype(float)` when an element cannot be converted to `float`. -/
inductive BHError where
  | invalidInput (received : PyVal)
  | coercionFailure

/-- Embedding of `BH_adjusted_pval` including its input checking (stats.py
lines 118-140): non-iterables are rejected with the `InvalidInput` error
naming the received value; iterables go through numeric coercion and then the
adjustment pipeline. -/
def BH_adjusted_pval_py (v : PyVal) : Except BHError (List ℚ) :=
  match v with
  | .pylist xs =>
    match seriesAstypeFloat xs with
    | some qs => .ok (BH_adjusted_pval qs)
    | none => .error .coercionFailure
  | _ => .error (.invalidInput v)

/-- The claim's precondition predicate: the argument is an iterable all of
whose elements are numeric. -/
def isIterableOfNums (v : PyVal) : Bool :=
  match v with
  | .pylist xs => (seriesAstypeFloat xs).isSome
  | _ => false

/-- C8 (amended): `BH_adjusted_pval` fails with the `InvalidInput` error
naming the received value exactly when the argument is NOT iterable (the code
checks only `isinstance(p_vals, Iterable)`); every iterable of numerics
returns normally.  The numeric content of an iterable is never checked by
this guard: an iterable containing an element `float()` cannot convert (a
nested list) fails later inside `astype(float)` with a different error,
which refutes the claim's "if and only if" (`C8_counterexample`). -/
theorem C8_invalid_input (v : PyVal) :
    (BH_adjusted_pval_py v = .error (.invalidInput v) ↔ v.isIterable = false) ∧
      (isIterableOfNums v = true → ∃ out, BH_adjusted_pval_py v = .ok out) := by
  constructor
  · cases v with
    | num q => simp [BH_adjusted_pval_py, PyVal.isIterable]
    | pylist xs =>
      simp only [PyVal.isIterable]
      constructor
      · intro h
        exfalso
        cases hs : seriesAstypeFloat xs with
        | some qs => simp [BH_adjusted_pval_py, hs] at h
        | none => simp [BH_adjusted_pval_py, hs] at h
      · intro h
        simp at h
  · intro h
    cases v with
    | pylist xs =>
      unfold isIterableOfNums at h
      obtain ⟨qs, hqs⟩ := Option.isSome_iff_exists.mp h
      exact ⟨BH_adjusted_pval qs, by simp [BH_adjusted_pval_py, hqs]⟩
    | num q => simp [isIterableOfNums] at h

/-- Witness for C8 at the iterable of numerics `[1/2]`. -/
theorem C8_invalid_input_witness :
    ∃ out, BH_adjusted_pval_py (.pylist [.num (1/2)]) = .ok out :=
  (C8_invalid_input (.pylist [.num (1/2)])).2 rfl

/-- Counterexample to C8 as stated: the nested list `[[]]` is an iterable
that is not an iterable of numeric p-values, so the claim requires the
`InvalidInput` error naming the received value — but the code passes its
`isinstance` check and fails later inside `astype(float)` (`float()` rejects
the list element with a `TypeError`), a different error. -/
theorem C8_counterexample :
    ¬ (BH_adjusted_pval_py (.pylist [.pylist []]) =
          .error (.invalidInput (.pylist [.pylist []])) ↔
        isIterableOfNums (.pylist [.pylist []]) = false) := by
  intro hiff
  have h2 := hiff.mpr rfl
  simp [BH_adjusted_pval_py, seriesAstypeFloat] at h2
